import Mathlib

/-!
Formal model of the histogram-Gaussianization core of `src/main.rs`
(`transform_histogram`, `cdf`, `inv_cdf` and the constants
`GAUSSIAN_AVERAGE`, `GAUSSIAN_STD`).

Machine arithmetic is modelled exactly: `f64` expressions over ℚ, `u32`
length arithmetic as ℕ with explicit `% 2 ^ 32`, and fallible Rust
indexing (which panics out of bounds) as `Option`.  The external
transcendental functions of the `puruspe` crate (`erf`, `inverf`) and the
irrational factor `sqrt 2` are not part of this repository; they enter the
model as explicit function parameters (`e`, `ie`), and every theorem that
needs a property of them (monotonicity, range, value at 0) takes that
property as a hypothesis that the real error function satisfies.

The two `par_sort_unstable_by_key` calls are modelled by their contract:
any output list that is a permutation of the input and is sorted
(non-strictly) by the sort key is a possible result; tie order among equal
keys is unspecified.
-/

namespace GaussianHist

/-- `GAUSSIAN_AVERAGE = 0.5` (src/main.rs line 18). -/
def gaussianAverage : ℚ := 1 / 2

/-- `GAUSSIAN_STD = (1.0/36.0).sqrt()` (src/main.rs lines 20-22); its exact
value is `1/6`. -/
def gaussianStd : ℚ := 1 / 6

/-- Model of `cdf` (src/main.rs lines 221-223):
`0.5 * (1.0 + erf((x - mu) / (sigma * 2.0.sqrt())))`.
The external transcendental `erf` (crate `puruspe`) together with the
irrational scale `sqrt 2` is abstracted into the parameter `e`, which
stands for `y ↦ erf (y / sqrt 2)`; in exact arithmetic the source
expression equals `(1 + e ((x - mu) / sigma)) / 2`. -/
def cdf (e : ℚ → ℚ) (x mu sigma : ℚ) : ℚ := (1 + e ((x - mu) / sigma)) / 2

/-- Model of `inv_cdf` (src/main.rs lines 225-227):
`sigma * 2.0.sqrt() * inverf(2.0 * u - 1.0) + mu`.
The parameter `ie` stands for `y ↦ sqrt 2 * inverf y` (crate `puruspe`). -/
def inv_cdf (ie : ℚ → ℚ) (u mu sigma : ℚ) : ℚ := sigma * ie (2 * u - 1) + mu

/-- One channel's enumerated samples `(original_index, intensity)`, as built
at src/main.rs line 137 by `inp.clone().into_iter().enumerate()`. -/
def samples (inp : List ℕ) : List (ℕ × ℕ) := inp.enum

/-- Sortedness by the intensity key `|(_, val)| *val` (src/main.rs line 138). -/
abbrev IsSortedByVal (l : List (ℕ × ℕ)) : Prop := l.Pairwise fun a b => a.2 ≤ b.2

/-- Contract of `par_sort_unstable_by_key(|(_, val)| *val)` at src/main.rs
line 138: any permutation of the input that is sorted non-strictly by
intensity is a possible output; tie order is unspecified. -/
abbrev IsSortOutput (inp out : List (ℕ × ℕ)) : Prop := inp.Perm out ∧ IsSortedByVal out

/-- The `ChannelPixel { subpx_idx, sort_idx }` list built at src/main.rs
lines 140-148 from the sorted samples, before the second sort. -/
def channelPixels (sorted : List (ℕ × ℕ)) : List (ℕ × ℕ) :=
  sorted.enum.map fun sp => (sp.2.1, sp.1)

/-- Sortedness by the key `|pixel| pixel.subpx_idx` (src/main.rs line 149). -/
abbrev IsSortedByIdx (l : List (ℕ × ℕ)) : Prop := l.Pairwise fun a b => a.1 ≤ b.1

/-- Contract of `par_sort_unstable_by_key(|pixel| pixel.subpx_idx)` at
src/main.rs line 149. -/
abbrev IsIdxSortOutput (inp out : List (ℕ × ℕ)) : Prop := inp.Perm out ∧ IsSortedByIdx out

/-- The normalized rank `u = (sort_idx as f64 + 0.5) / (input_sorted.len() as f64)`
(src/main.rs line 153). -/
def normalizedRank (r N : ℕ) : ℚ := ((r : ℚ) + 1 / 2) / (N : ℚ)

/-- The per-channel forward array (src/main.rs lines 151-156): slot `i`
reads `input_orig_order[i].sort_idx` and stores
`inv_cdf u GAUSSIAN_AVERAGE GAUSSIAN_STD` (the final `as f32` cast is not
modelled; values are kept exact). `N` is `input_sorted.len()`. -/
def forwardChannel (ie : ℚ → ℚ) (N : ℕ) (orig : List (ℕ × ℕ)) : List ℚ :=
  orig.map fun p => inv_cdf ie (normalizedRank p.2 N) gaussianAverage gaussianStd

/-- The LUT lookup index `(u * input_sorted.len() as f64).floor() as usize`
for LUT slot `k` (src/main.rs lines 159-161); the `as usize` cast of a
negative float saturates at 0, as `Int.toNat` does. -/
def lutIndex (e : ℚ → ℚ) (W N k : ℕ) : ℕ :=
  (Int.floor (cdf e (((k : ℚ) + 1 / 2) / (W : ℚ)) gaussianAverage gaussianStd * N)).toNat

/-- Modelled from the spec: the clamped lookup index `min (floor (u * N)) (N - 1)`
that section 4.3 of the specification requires; the source itself performs
no clamping, so this definition exists only to be compared with `lutIndex`. -/
def lutIndexClamped (e : ℚ → ℚ) (W N k : ℕ) : ℕ := min (lutIndex e W N k) (N - 1)

/-- One LUT entry `input_sorted[index].1` (src/main.rs line 162), `none`
when the Rust indexing would panic out of bounds. -/
def lutEntry (e : ℚ → ℚ) (W : ℕ) (sorted : List (ℕ × ℕ)) (k : ℕ) : Option ℕ :=
  (sorted[lutIndex e W sorted.length k]?).map Prod.snd

/-- The per-channel inverse LUT of length `W` (src/main.rs lines 158-164). -/
def lutChannel (e : ℚ → ℚ) (W : ℕ) (sorted : List (ℕ × ℕ)) : List (Option ℕ) :=
  (List.range W).map (lutEntry e W sorted)

/-- Collects a list of fallible results; `none` as soon as one entry is
`none` (a Rust panic aborts the whole computation). -/
def seqOption {α : Type} : List (Option α) → Option (List α)
  | [] => some []
  | none :: _ => none
  | some a :: l => (seqOption l).map fun xs => a :: xs

/-- The per-channel slice of `transform_histogram`'s sorting closure
(src/main.rs lines 136-165): the forward array together with the inverse
LUT, `none` when any LUT lookup panics. `sorted` and `orig` are the chosen
outputs of the two unstable sorts. -/
def channelOutputs? (e ie : ℚ → ℚ) (W : ℕ) (sorted orig : List (ℕ × ℕ)) :
    Option (List ℚ × List ℕ) :=
  (seqOption (lutChannel e W sorted)).map fun lut =>
    (forwardChannel ie sorted.length orig, lut)

/-- One channel of the decoded image: the `W * H` subpixel values in
row-major pixel order (src/main.rs lines 124-128). -/
def channelOf (pix : ℕ → ℕ) (W H : ℕ) : List ℕ := (List.range (W * H)).map pix

/-- Length of each per-channel buffer `vec![_; (input.width() * input.height()) as usize]`
(src/main.rs lines 112-122): the `u32` product wraps modulo `2 ^ 32`
before widening to `usize`. -/
def channelLen (W H : ℕ) : ℕ := W * H % 2 ^ 32

/-- Length of the interleaved forward buffer
`vec![0.0; (input.width() * input.height() * 3) as usize]`
(src/main.rs line 169): both `u32` multiplications wrap modulo `2 ^ 32`. -/
def outImgLen (W H : ℕ) : ℕ := W * H % 2 ^ 32 * 3 % 2 ^ 32

/-- The tie-break policy stated by the specification: among equal
intensities, original indices appear in ascending order. -/
abbrev TieBrokenByIndex (l : List (ℕ × ℕ)) : Prop :=
  l.Pairwise fun a b => a.2 = b.2 → a.1 < b.1

/-- With the erf parameter mapping into (-1,1), every cdf value lies
strictly inside (0,1). -/
lemma cdf_mem_open_unit (e : ℚ → ℚ) (hr : ∀ x, -1 < e x ∧ e x < 1) (x mu sigma : ℚ) :
    0 < cdf e x mu sigma ∧ cdf e x mu sigma < 1 := by
  obtain ⟨h1, h2⟩ := hr ((x - mu) / sigma)
  unfold cdf
  constructor <;> linarith

/-- The unclamped lookup index stays below N whenever N ≥ 1. -/
lemma lutIndex_lt (e : ℚ → ℚ) (hr : ∀ x, -1 < e x ∧ e x < 1) (W N k : ℕ)
    (hN : 1 ≤ N) : lutIndex e W N k < N := by
  obtain ⟨hu0, hu1⟩ :=
    cdf_mem_open_unit e hr (((k : ℚ) + 1 / 2) / (W : ℚ)) gaussianAverage gaussianStd
  have hN0 : (0 : ℚ) < (N : ℚ) := by exact_mod_cast hN
  have hmul : cdf e (((k : ℚ) + 1 / 2) / (W : ℚ)) gaussianAverage gaussianStd * (N : ℚ)
      < (N : ℚ) := by nlinarith
  have hnn : 0 ≤ Int.floor
      (cdf e (((k : ℚ) + 1 / 2) / (W : ℚ)) gaussianAverage gaussianStd * (N : ℚ)) :=
    Int.floor_nonneg.mpr (le_of_lt (mul_pos hu0 hN0))
  unfold lutIndex
  rw [Int.toNat_lt hnn]
  exact Int.floor_lt.mpr (by exact_mod_cast hmul)

/-- Every LUT entry reads position `lutIndex` of the sorted intensity list. -/
lemma lutEntry_eq_map_snd (e : ℚ → ℚ) (W : ℕ) (sorted : List (ℕ × ℕ)) (k : ℕ) :
    lutEntry e W sorted k = (sorted.map Prod.snd)[lutIndex e W sorted.length k]? := by
  unfold lutEntry
  rw [List.getElem?_map]

/-- C1: for every channel with N ≥ 1 samples and every LUT slot k, the
lookup index floor(cdf((k+0.5)/W) * N) lies in [0, N) — it coincides with
its clamp to N-1 — so the sorted-samples lookup always succeeds. (The
source performs no explicit clamp; in exact arithmetic the index already
equals the clamped value required by the specification.) -/
theorem lutIndex_in_bounds (e : ℚ → ℚ) (hr : ∀ x, -1 < e x ∧ e x < 1)
    (sorted : List (ℕ × ℕ)) (hN : 1 ≤ sorted.length) (W k : ℕ) :
    lutIndex e W sorted.length k < sorted.length ∧
      lutIndex e W sorted.length k = lutIndexClamped e W sorted.length k ∧
      (lutEntry e W sorted k).isSome = true := by
  have hlt := lutIndex_lt e hr W sorted.length k hN
  refine ⟨hlt, ?_, ?_⟩
  · unfold lutIndexClamped
    exact (Nat.min_eq_left (Nat.le_pred_of_lt hlt)).symm
  · unfold lutEntry
    rw [List.getElem?_eq_getElem hlt]
    rfl

/-- Witness for C1 with the zero function standing in for the bounded erf,
a single-sample channel and W = 4, k = 0. -/
theorem lutIndex_in_bounds_witness :
    lutIndex (fun _ => 0) 4 1 0 < 1 ∧
      lutIndex (fun _ => 0) 4 1 0 = lutIndexClamped (fun _ => 0) 4 1 0 ∧
      (lutEntry (fun _ => 0) 4 [(0, 7)] 0).isSome = true :=
  lutIndex_in_bounds (fun _ => 0) (fun x => ⟨by norm_num, by norm_num⟩)
    [(0, 7)] (by decide) 4 0

/-- C2 fails on the code: with W = 1 and H = 0 the channel is empty, the
only possible sorted-samples list is [], and the LUT loop's lookup
`input_sorted[0]` panics out of bounds, so `transform_histogram` aborts
instead of returning empty outputs without error. -/
theorem degenerate_height_panics (e ie : ℚ → ℚ) (pix : ℕ → ℕ)
    (sorted orig : List (ℕ × ℕ))
    (hs : IsSortOutput (samples (channelOf pix 1 0)) sorted) :
    channelOutputs? e ie 1 sorted orig = none := by
  have hnil : sorted = [] := by
    have h1 : samples (channelOf pix 1 0) = [] := rfl
    have h2 := hs.1
    rw [h1] at h2
    exact h2.symm.eq_nil
  subst hnil
  simp [channelOutputs?, lutChannel, lutEntry, seqOption, List.range_succ]

/-- Witness for C2's failing input W = 1, H = 0. -/
theorem degenerate_height_panics_witness :
    channelOutputs? (fun _ => 0) (fun _ => 0) 1 [] [] = none :=
  degenerate_height_panics (fun _ => 0) (fun _ => 0) (fun _ => 0) [] []
    (by decide)

/-- C9: the inverse LUT is deterministic although the sort is unstable —
any two admissible outputs of the unstable sort (any two tie orderings)
yield identical per-channel LUT buffers, because the entries depend only
on the sorted intensity sequence, which the multiset of intensities
determines uniquely. -/
theorem lutChannel_independent_of_tie_order (e : ℚ → ℚ) (W : ℕ) (inp : List ℕ)
    (s1 s2 : List (ℕ × ℕ)) (h1 : IsSortOutput (samples inp) s1)
    (h2 : IsSortOutput (samples inp) s2) :
    lutChannel e W s1 = lutChannel e W s2 := by
  have hperm : s1.Perm s2 := h1.1.symm.trans h2.1
  have hlen : s1.length = s2.length := hperm.length_eq
  have hsnd : s1.map Prod.snd = s2.map Prod.snd := by
    have hs1 : List.Sorted (fun a b : ℕ => a ≤ b) (s1.map Prod.snd) :=
      (List.pairwise_map).mpr h1.2
    have hs2 : List.Sorted (fun a b : ℕ => a ≤ b) (s2.map Prod.snd) :=
      (List.pairwise_map).mpr h2.2
    exact List.eq_of_perm_of_sorted (hperm.map Prod.snd) hs1 hs2
  unfold lutChannel
  refine List.map_congr_left fun k _ => ?_
  rw [lutEntry_eq_map_snd, lutEntry_eq_map_snd, hsnd, hlen]

/-- Witness for C9: two opposite tie orderings of the channel [5, 5]
produce the same LUT. -/
theorem lutChannel_independent_of_tie_order_witness :
    lutChannel (fun _ => 0) 2 [(0, 5), (1, 5)] = lutChannel (fun _ => 0) 2 [(1, 5), (0, 5)] :=
  lutChannel_independent_of_tie_order (fun _ => 0) 2 [5, 5]
    [(0, 5), (1, 5)] [(1, 5), (0, 5)] (by decide) (by decide)

/-- The sorted-samples list has the channel's length. -/
lemma sortOutput_length {inp : List ℕ} {sorted : List (ℕ × ℕ)}
    (hs : IsSortOutput (samples inp) sorted) : sorted.length = inp.length := by
  have h := hs.1.length_eq
  simpa [samples] using h.symm

/-- Membership in the enumerated samples is positional lookup into the
channel. -/
lemma mem_samples_iff {inp : List ℕ} {i v : ℕ} :
    (i, v) ∈ samples inp ↔ inp[i]? = some v := by
  simp [samples, List.mk_mem_enum_iff_getElem?]

/-- The original-index projection of the ChannelPixel list coincides with
the sorted list's original indices. -/
lemma channelPixels_map_fst (sorted : List (ℕ × ℕ)) :
    (channelPixels sorted).map Prod.fst = sorted.map Prod.fst := by
  unfold channelPixels
  rw [List.map_map]
  have h : (Prod.fst ∘ fun sp : ℕ × (ℕ × ℕ) => (sp.2.1, sp.1)) = Prod.fst ∘ Prod.snd := rfl
  rw [h, ← List.map_map, List.enum_map_snd]

/-- The rank projection of the ChannelPixel list enumerates [0, N). -/
lemma channelPixels_map_snd (sorted : List (ℕ × ℕ)) :
    (channelPixels sorted).map Prod.snd = List.range sorted.length := by
  unfold channelPixels
  rw [List.map_map]
  have h : (Prod.snd ∘ fun sp : ℕ × (ℕ × ℕ) => (sp.2.1, sp.1)) = Prod.fst := rfl
  rw [h, List.enum_map_fst]

/-- A pair `(i, r)` occurs among the ChannelPixels exactly when the sorted
list stores sample `i` at position `r`. -/
lemma mem_channelPixels_iff {sorted : List (ℕ × ℕ)} {i r : ℕ} :
    (i, r) ∈ channelPixels sorted ↔ ∃ v, sorted[r]? = some (i, v) := by
  unfold channelPixels
  rw [List.mem_map]
  constructor
  · rintro ⟨⟨s, p⟩, hmem, heq⟩
    obtain ⟨h1, h2⟩ := Prod.mk.injEq .. ▸ heq
    refine ⟨p.2, ?_⟩
    rw [← h2, ← List.mk_mem_enum_iff_getElem?]
    have hp : p = (i, p.2) := by
      ext
      · exact h1
      · rfl
    exact hp ▸ hmem
  · rintro ⟨v, hv⟩
    exact ⟨(r, (i, v)), List.mk_mem_enum_iff_getElem?.mpr hv, rfl⟩

/-- After the second sort the ChannelPixel list is ordered exactly by
original index: its fst projection is `range N`. -/
lemma origOrder_map_fst {inp : List ℕ} {sorted orig : List (ℕ × ℕ)}
    (hs : IsSortOutput (samples inp) sorted)
    (ho : IsIdxSortOutput (channelPixels sorted) orig) :
    orig.map Prod.fst = List.range inp.length := by
  have hperm : (orig.map Prod.fst).Perm (List.range inp.length) := by
    have p1 : (orig.map Prod.fst).Perm ((channelPixels sorted).map Prod.fst) :=
      (ho.1.map Prod.fst).symm
    rw [channelPixels_map_fst] at p1
    have p2 : (sorted.map Prod.fst).Perm ((samples inp).map Prod.fst) :=
      (hs.1.map Prod.fst).symm
    have he : (samples inp).map Prod.fst = List.range inp.length := by
      simp [samples, List.enum_map_fst]
    rw [he] at p2
    exact p1.trans p2
  have hsorted : List.Sorted (fun a b : ℕ => a ≤ b) (orig.map Prod.fst) :=
    (List.pairwise_map).mpr ho.2
  have hrange : List.Sorted (fun a b : ℕ => a ≤ b) (List.range inp.length) :=
    List.pairwise_le_range inp.length
  exact List.eq_of_perm_of_sorted hperm hsorted hrange

/-- Position i of the re-sorted ChannelPixel list carries original index i
together with a rank r that addresses sample i inside the sorted list. -/
lemma origOrder_getElem {inp : List ℕ} {sorted orig : List (ℕ × ℕ)}
    (hs : IsSortOutput (samples inp) sorted)
    (ho : IsIdxSortOutput (channelPixels sorted) orig)
    {i : ℕ} (hi : i < inp.length) :
    ∃ r v, orig[i]? = some (i, r) ∧ sorted[r]? = some (i, v) ∧ inp[i]? = some v := by
  have hfst := origOrder_map_fst hs ho
  have h1 : (orig[i]?).map Prod.fst = some i := by
    rw [← List.getElem?_map, hfst, List.getElem?_range hi]
  rcases horig : orig[i]? with _ | p
  · rw [horig] at h1
    exact absurd h1 (by simp)
  · rw [horig] at h1
    have hp1 : p.1 = i := by
      simpa using h1
    have hpair : p = (i, p.2) := by
      ext
      · exact hp1
      · rfl
    have hmem : (i, p.2) ∈ orig := hpair ▸ List.getElem?_mem horig
    have hmem2 : (i, p.2) ∈ channelPixels sorted := (ho.1.mem_iff).mpr hmem
    obtain ⟨v, hv⟩ := mem_channelPixels_iff.mp hmem2
    have hvin : inp[i]? = some v := by
      have hmem3 : (i, v) ∈ sorted := List.getElem?_mem hv
      have hmem4 : (i, v) ∈ samples inp := (hs.1.mem_iff).mpr hmem3
      exact mem_samples_iff.mp hmem4
    refine ⟨p.2, v, ?_, hv, hvin⟩
    exact congrArg some hpair

/-- C5: the rank map produced by the double sort is a bijection of [0,N):
the ranks read off in original-index order are a permutation of
`range N`, and the sorted sample at position RankMap[i] carries original
index i, for every i < N. -/
theorem rankMap_bijection (inp : List ℕ) (sorted orig : List (ℕ × ℕ))
    (hs : IsSortOutput (samples inp) sorted)
    (ho : IsIdxSortOutput (channelPixels sorted) orig)
    (_hN : 1 ≤ inp.length) :
    (orig.map Prod.snd).Perm (List.range inp.length) ∧
      ∀ i < inp.length, ∃ r, orig[i]? = some (i, r) ∧
        (sorted[r]?).map Prod.fst = some i := by
  constructor
  · have p1 : (orig.map Prod.snd).Perm ((channelPixels sorted).map Prod.snd) :=
      (ho.1.map Prod.snd).symm
    rw [channelPixels_map_snd, sortOutput_length hs] at p1
    exact p1
  · intro i hi
    obtain ⟨r, v, h1, h2, _⟩ := origOrder_getElem hs ho hi
    exact ⟨r, h1, by rw [h2]; rfl⟩

/-- Witness for C5 on the two-pixel channel [2, 1]. -/
theorem rankMap_bijection_witness :
    (([(0, 1), (1, 0)] : List (ℕ × ℕ)).map Prod.snd).Perm (List.range 2) ∧
      ∀ i < 2, ∃ r, ([(0, 1), (1, 0)] : List (ℕ × ℕ))[i]? = some (i, r) ∧
        (([(1, 1), (0, 2)] : List (ℕ × ℕ))[r]?).map Prod.fst = some i :=
  rankMap_bijection [2, 1] [(1, 1), (0, 2)] [(0, 1), (1, 0)]
    (by decide) (by decide) (by decide)

/-- C4 counterexample: for the channel [5, 5] the unstable sort may emit
[(1,5),(0,5)]; the second sort then yields [(0,1),(1,0)], and with the
identity standing in for the strictly monotone √2·erfinv the forward array
is [7/12, 5/12]: the equal-intensity pixel with the smaller original index
receives the larger value, so ForwardArray does not follow original_index
order on ties. -/
theorem forward_tie_order_cex :
    IsSortOutput (samples [5, 5]) [(1, 5), (0, 5)] ∧
      IsIdxSortOutput (channelPixels [(1, 5), (0, 5)]) [(0, 1), (1, 0)] ∧
      forwardChannel (fun x => x) 2 [(0, 1), (1, 0)] = [7 / 12, 5 / 12] ∧
      ¬ (7 / 12 : ℚ) ≤ 5 / 12 := by
  refine ⟨by decide, by decide, ?_, by norm_num⟩
  norm_num [forwardChannel, inv_cdf, normalizedRank, gaussianStd, gaussianAverage]

/-- C4 amended: in exact arithmetic, for every admissible pair of sort
outputs and every strictly monotone quantile kernel, strictly smaller
intensity forces a strictly smaller forward value; for equal intensities
the forward values follow the tie order the unstable sort happened to
choose, which need not be original-index order. -/
theorem forward_strict_mono (ie : ℚ → ℚ) (hie : StrictMono ie)
    (inp : List ℕ) (sorted orig : List (ℕ × ℕ))
    (hs : IsSortOutput (samples inp) sorted)
    (ho : IsIdxSortOutput (channelPixels sorted) orig)
    (i j vi vj : ℕ) (hvi : inp[i]? = some vi) (hvj : inp[j]? = some vj)
    (hv : vi < vj) (fi fj : ℚ)
    (hfi : (forwardChannel ie sorted.length orig)[i]? = some fi)
    (hfj : (forwardChannel ie sorted.length orig)[j]? = some fj) :
    fi < fj := by
  have hi : i < inp.length := (List.getElem?_eq_some.mp hvi).1
  have hj : j < inp.length := (List.getElem?_eq_some.mp hvj).1
  obtain ⟨ri, wi, hoi, hsi, hvi2⟩ := origOrder_getElem hs ho hi
  obtain ⟨rj, wj, hoj, hsj, hvj2⟩ := origOrder_getElem hs ho hj
  have hwi : wi = vi := by
    have h := hvi2.symm.trans hvi
    simpa using h
  have hwj : wj = vj := by
    have h := hvj2.symm.trans hvj
    simpa using h
  rw [hwi] at hsi
  rw [hwj] at hsj
  have hri : ri < sorted.length := (List.getElem?_eq_some.mp hsi).1
  have hrj : rj < sorted.length := (List.getElem?_eq_some.mp hsj).1
  have hgi : sorted[ri] = (i, vi) := by
    have h := List.getElem?_eq_getElem hri
    exact Option.some_inj.mp (h.symm.trans hsi)
  have hgj : sorted[rj] = (j, vj) := by
    have h := List.getElem?_eq_getElem hrj
    exact Option.some_inj.mp (h.symm.trans hsj)
  have hrij : ri < rj := by
    rcases lt_trichotomy ri rj with h | h | h
    · exact h
    · exfalso
      rw [h] at hsi
      have heq : (i, vi) = (j, vj) := by
        have h2 := hsi.symm.trans hsj
        simpa using h2
      have hvv : vi = vj := congrArg Prod.snd heq
      exact absurd hv (by rw [hvv]; exact lt_irrefl vj)
    · exfalso
      have hle := List.pairwise_iff_getElem.mp hs.2 rj ri hrj hri h
      rw [hgi, hgj] at hle
      exact absurd hv (not_lt.mpr hle)
  -- extract the two forward values
  have hfi2 : fi = inv_cdf ie (normalizedRank ri sorted.length)
      gaussianAverage gaussianStd := by
    have h := hfi
    unfold forwardChannel at h
    rw [List.getElem?_map, hoi] at h
    exact (Option.some_inj.mp h).symm
  have hfj2 : fj = inv_cdf ie (normalizedRank rj sorted.length)
      gaussianAverage gaussianStd := by
    have h := hfj
    unfold forwardChannel at h
    rw [List.getElem?_map, hoj] at h
    exact (Option.some_inj.mp h).symm
  have hN0 : (0 : ℚ) < (sorted.length : ℚ) := by
    have h : 0 < sorted.length := lt_of_le_of_lt (Nat.zero_le ri) hri
    exact_mod_cast h
  have hu : normalizedRank ri sorted.length < normalizedRank rj sorted.length := by
    unfold normalizedRank
    rw [div_lt_div_iff_of_pos_right hN0]
    have h : (ri : ℚ) < (rj : ℚ) := by exact_mod_cast hrij
    linarith
  have harg := hie (show 2 * normalizedRank ri sorted.length - 1 <
    2 * normalizedRank rj sorted.length - 1 by linarith)
  rw [hfi2, hfj2]
  unfold inv_cdf gaussianStd gaussianAverage
  linarith

/-- Witness for C4 amended on the channel [1, 2] with the identity kernel. -/
theorem forward_strict_mono_witness :
    (forwardChannel (fun x => x) 2 [(0, 0), (1, 1)])[0]? = some (5 / 12) ∧
      (forwardChannel (fun x => x) 2 [(0, 0), (1, 1)])[1]? = some (7 / 12) ∧
      (5 / 12 : ℚ) < 7 / 12 :=
  ⟨by norm_num [forwardChannel, inv_cdf, normalizedRank, gaussianStd, gaussianAverage],
    by norm_num [forwardChannel, inv_cdf, normalizedRank, gaussianStd, gaussianAverage],
    forward_strict_mono (fun x => x) strictMono_id [1, 2] [(0, 1), (1, 2)]
      [(0, 0), (1, 1)] (by decide) (by decide) 0 1 1 2 (by decide) (by decide)
      (by decide) (5 / 12) (7 / 12)
      (by norm_num [forwardChannel, inv_cdf, normalizedRank, gaussianStd, gaussianAverage])
      (by norm_num [forwardChannel, inv_cdf, normalizedRank, gaussianStd, gaussianAverage])⟩

/-- C3 counterexample: for the channel [5, 5], the list [(1,5),(0,5)] is an
admissible output of the unstable intensity sort, yet its equal-intensity
samples appear with original indices in descending order. -/
theorem sort_tiebreak_cex :
    IsSortOutput (samples [5, 5]) [(1, 5), (0, 5)] ∧
      ¬ TieBrokenByIndex [(1, 5), (0, 5)] := by decide

/-- Intensity-then-original-index order realizing the specification's
recommended deterministic tie-break. -/
def valIdxLe (a b : ℕ × ℕ) : Prop := a.2 < b.2 ∨ (a.2 = b.2 ∧ a.1 ≤ b.1)

instance : DecidableRel valIdxLe := fun a b => by
  unfold valIdxLe
  infer_instance

instance : IsTotal (ℕ × ℕ) valIdxLe := by
  constructor
  intro a b
  unfold valIdxLe
  rcases lt_trichotomy a.2 b.2 with h | h | h
  · exact Or.inl (Or.inl h)
  · rcases le_total a.1 b.1 with h2 | h2
    · exact Or.inl (Or.inr ⟨h, h2⟩)
    · exact Or.inr (Or.inr ⟨h.symm, h2⟩)
  · exact Or.inr (Or.inl h)

instance : IsTrans (ℕ × ℕ) valIdxLe := by
  constructor
  intro a b c hab hbc
  unfold valIdxLe at *
  rcases hab with h1 | ⟨h1, h1i⟩ <;> rcases hbc with h2 | ⟨h2, h2i⟩
  · exact Or.inl (lt_trans h1 h2)
  · exact Or.inl (by rw [← h2]; exact h1)
  · exact Or.inl (by rw [h1]; exact h2)
  · exact Or.inr ⟨h1.trans h2, le_trans h1i h2i⟩

/-- C3 amended: the unstable sort fixes only the multiset and the
non-strict ordering by intensity; tie order among equal intensities is
unspecified. Breaking ties by ascending original index is admissible — for
every channel some valid sort output satisfies the policy — but it is not
guaranteed. -/
theorem sort_tiebreak_admissible (inp : List ℕ) :
    ∃ out, IsSortOutput (samples inp) out ∧ TieBrokenByIndex out := by
  refine ⟨List.insertionSort valIdxLe (samples inp), ⟨?_, ?_⟩, ?_⟩
  · exact (List.perm_insertionSort valIdxLe (samples inp)).symm
  · refine (List.sorted_insertionSort valIdxLe (samples inp)).imp ?_
    intro a b h
    rcases h with h | ⟨h, _⟩
    · exact le_of_lt h
    · exact le_of_eq h
  · have hnodup : ((samples inp).map Prod.fst).Nodup := List.nodup_enum_map_fst inp
    have hperm := (List.perm_insertionSort valIdxLe (samples inp)).map Prod.fst
    have hnd2 : ((List.insertionSort valIdxLe (samples inp)).map Prod.fst).Nodup :=
      hperm.nodup_iff.mpr hnodup
    have hne : (List.insertionSort valIdxLe (samples inp)).Pairwise
        (fun a b : ℕ × ℕ => a.1 ≠ b.1) := (List.pairwise_map).mp hnd2
    refine ((List.sorted_insertionSort valIdxLe (samples inp)).and hne).imp ?_
    intro a b h heq
    rcases h.1 with h1 | ⟨_, h1⟩
    · exact absurd heq (ne_of_lt h1)
    · exact lt_of_le_of_ne h1 h.2

/-- C6: per channel the inverse LUT is monotone non-decreasing along the
width axis: for k1 < k2 < W both entries are defined and ordered, for any
monotone erf kernel with range inside (-1,1) and any sorted sample list
with N ≥ 1. -/
theorem lut_monotone (e : ℚ → ℚ) (hm : Monotone e) (hr : ∀ x, -1 < e x ∧ e x < 1)
    (sorted : List (ℕ × ℕ)) (hsort : IsSortedByVal sorted) (hN : 1 ≤ sorted.length)
    (W k1 k2 : ℕ) (hk : k1 < k2) (hk2 : k2 < W) :
    ∃ v1 v2, lutEntry e W sorted k1 = some v1 ∧ lutEntry e W sorted k2 = some v2 ∧
      v1 ≤ v2 := by
  have hW0 : (0 : ℚ) < (W : ℚ) := by
    have h : 0 < W := lt_of_le_of_lt (Nat.zero_le k2) hk2
    exact_mod_cast h
  have hg : ((k1 : ℚ) + 1 / 2) / (W : ℚ) ≤ ((k2 : ℚ) + 1 / 2) / (W : ℚ) := by
    rw [div_le_div_iff_of_pos_right hW0]
    have h : (k1 : ℚ) ≤ (k2 : ℚ) := by exact_mod_cast le_of_lt hk
    linarith
  have hcdf : cdf e (((k1 : ℚ) + 1 / 2) / (W : ℚ)) gaussianAverage gaussianStd ≤
      cdf e (((k2 : ℚ) + 1 / 2) / (W : ℚ)) gaussianAverage gaussianStd := by
    unfold cdf
    have hσ : (0 : ℚ) < gaussianStd := by norm_num [gaussianStd]
    have harg : (((k1 : ℚ) + 1 / 2) / (W : ℚ) - gaussianAverage) / gaussianStd ≤
        (((k2 : ℚ) + 1 / 2) / (W : ℚ) - gaussianAverage) / gaussianStd := by
      rw [div_le_div_iff_of_pos_right hσ]
      linarith
    have h := hm harg
    linarith
  have hidx : lutIndex e W sorted.length k1 ≤ lutIndex e W sorted.length k2 := by
    unfold lutIndex
    exact Int.toNat_le_toNat (Int.floor_le_floor
      (mul_le_mul_of_nonneg_right hcdf (by positivity)))
  have hlt1 := lutIndex_lt e hr W sorted.length k1 hN
  have hlt2 := lutIndex_lt e hr W sorted.length k2 hN
  refine ⟨(sorted[lutIndex e W sorted.length k1]).2,
          (sorted[lutIndex e W sorted.length k2]).2, ?_, ?_, ?_⟩
  · unfold lutEntry
    rw [List.getElem?_eq_getElem hlt1]
    rfl
  · unfold lutEntry
    rw [List.getElem?_eq_getElem hlt2]
    rfl
  · rcases lt_or_eq_of_le hidx with h | h
    · exact List.pairwise_iff_getElem.mp hsort _ _ hlt1 hlt2 h
    · simp only [h]
      exact le_rfl

/-- Witness for C6 with the zero kernel, the sorted channel [(0,3),(1,4)]
and W = 2. -/
theorem lut_monotone_witness :
    ∃ v1 v2, lutEntry (fun _ => 0) 2 [(0, 3), (1, 4)] 0 = some v1 ∧
      lutEntry (fun _ => 0) 2 [(0, 3), (1, 4)] 1 = some v2 ∧ v1 ≤ v2 :=
  lut_monotone (fun _ => 0) monotone_const (fun x => ⟨by norm_num, by norm_num⟩)
    [(0, 3), (1, 4)] (by decide) (by decide) 2 0 1 (by decide) (by decide)

/-- C7: a single-sample channel (N = 1) forces rank 0, normalized rank
u = 1/2 and a forward value of exactly mu = 1/2, for every admissible
execution and every quantile kernel with √2·erfinv 0 = 0. -/
theorem single_sample_exact (ie : ℚ → ℚ) (h0 : ie 0 = 0) (v : ℕ)
    (sorted orig : List (ℕ × ℕ))
    (hs : IsSortOutput (samples [v]) sorted)
    (ho : IsIdxSortOutput (channelPixels sorted) orig) :
    orig = [(0, 0)] ∧ normalizedRank 0 1 = 1 / 2 ∧
      forwardChannel ie sorted.length orig = [gaussianAverage] := by
  have hsorted : sorted = [(0, v)] := by
    have h := hs.1
    have he : samples [v] = [(0, v)] := rfl
    rw [he] at h
    exact List.perm_singleton.mp h.symm
  subst hsorted
  have horig : orig = [(0, 0)] := by
    have h := ho.1
    have he : channelPixels [(0, v)] = [(0, 0)] := rfl
    rw [he] at h
    exact List.perm_singleton.mp h.symm
  subst horig
  refine ⟨rfl, by norm_num [normalizedRank], ?_⟩
  norm_num [forwardChannel, inv_cdf, normalizedRank, gaussianAverage, h0]

/-- Witness for C7 with the identity kernel and the channel [9]. -/
theorem single_sample_exact_witness :
    ([(0, 0)] : List (ℕ × ℕ)) = [(0, 0)] ∧ normalizedRank 0 1 = 1 / 2 ∧
      forwardChannel (fun x => x) 1 [(0, 0)] = [gaussianAverage] :=
  single_sample_exact (fun x => x) rfl 9 [(0, 9)] [(0, 0)] (by decide) (by decide)

/-- C8: for every channel with N ≥ 1 and every rank r in [0,N), the
normalized rank u = (r + 0.5)/N lies strictly inside (0,1), hence the
argument 2u - 1 handed to the inverse error function inside `inv_cdf`
lies strictly inside (-1,1), so the quantile evaluation never leaves the
domain of `erfinv`. -/
theorem normalizedRank_mem_open_unit (N r : ℕ) (hN : 1 ≤ N) (hr : r < N) :
    0 < normalizedRank r N ∧ normalizedRank r N < 1 ∧
      -1 < 2 * normalizedRank r N - 1 ∧ 2 * normalizedRank r N - 1 < 1 := by
  have hN0 : (0 : ℚ) < (N : ℚ) := by exact_mod_cast hN
  have hrN : (r : ℚ) + 1 / 2 < (N : ℚ) := by
    have h1 : (r : ℚ) + 1 ≤ (N : ℚ) := by exact_mod_cast hr
    linarith
  have h1 : 0 < normalizedRank r N := by
    unfold normalizedRank
    exact div_pos (by positivity) hN0
  have h2 : normalizedRank r N < 1 := by
    unfold normalizedRank
    rw [div_lt_one hN0]
    exact hrN
  exact ⟨h1, h2, by linarith, by linarith⟩

/-- Witness for C8 at N = 4, r = 1. -/
theorem normalizedRank_mem_open_unit_witness :
    0 < normalizedRank 1 4 ∧ normalizedRank 1 4 < 1 ∧
      -1 < 2 * normalizedRank 1 4 - 1 ∧ 2 * normalizedRank 1 4 - 1 < 1 :=
  normalizedRank_mem_open_unit 4 1 (by decide) (by decide)

/-- C10 counterexample: at W = 3221225472, H = 2 (so W * H ≥ 2 ^ 32) the
interleaved forward-buffer length computed by the code is not
3 * ((W * H) mod 2 ^ 32): the final multiplication by 3 also wraps. -/
theorem outImgLen_not_three_mul_mod :
    2 ^ 32 ≤ 3221225472 * 2 ∧
      outImgLen 3221225472 2 ≠ 3 * (3221225472 * 2 % 2 ^ 32) := by
  refine ⟨by norm_num, ?_⟩
  unfold outImgLen
  norm_num

/-- C10 amended: buffer lengths are computed in wrapping 32-bit unsigned
arithmetic before widening to usize; the interleaved forward buffer has
length (3 * W * H) mod 2 ^ 32 — which coincides with 3 * ((W * H) mod 2 ^ 32)
only when that value is below 2 ^ 32 — and the stated output-length
guarantees hold exactly under the precondition 3 * W * H < 2 ^ 32. -/
theorem bufferLen_wrap (W H : ℕ) :
    outImgLen W H = 3 * (W * H) % 2 ^ 32 ∧
      (3 * (W * H) < 2 ^ 32 → outImgLen W H = 3 * (W * H) ∧ channelLen W H = W * H) := by
  have hmain : outImgLen W H = 3 * (W * H) % 2 ^ 32 := by
    unfold outImgLen
    rw [Nat.mod_mul_mod, Nat.mul_comm]
  refine ⟨hmain, fun h => ⟨?_, ?_⟩⟩
  · rw [hmain]
    exact Nat.mod_eq_of_lt h
  · unfold channelLen
    have h1 : W * H < 2 ^ 32 :=
      lt_of_le_of_lt (Nat.le_mul_of_pos_left _ (by norm_num)) h
    exact Nat.mod_eq_of_lt h1

/-- Witness for C10 amended at W = 2, H = 3. -/
theorem bufferLen_wrap_witness : outImgLen 2 3 = 3 * (2 * 3) ∧ channelLen 2 3 = 2 * 3 :=
  (bufferLen_wrap 2 3).2 (by norm_num)

end GaussianHist
